import Mathlib

/-
Formal model of the TMHMM3 membrane-topology model (`src/tm_models.py`).

The CRF transition parameters are modelled as integer-valued score tables
(`Nat → Int` vectors and `Nat → Nat → Int` matrices); marginal probabilities are
modelled over `Rat`.  List-of-list matrices model torch tensors where the shape
matters.  Components that live outside the repository (the `pytorchcrf` CRF
decoder, the blosum62 csv table, the LSTM) appear either as parameters or as
definitions modelled from the specification, marked as such in their doc
comments.
-/

/-- The CRF parameter bundle of `TMHMM3.__init__`: start-transition scores,
end-transition scores and the pairwise transition matrix, indexed by tag id. -/
structure CRFParams where
  start_transitions : Nat → Int
  end_transitions : Nat → Int
  transitions : Nat → Nat → Int

/-- `num_tags = num_labels + (2 * 40 if use_hmm_model else 0)`
(`src/tm_models.py` line 25). -/
def num_tags (num_labels : Nat) (use_hmm_model : Bool) : Nat :=
  num_labels + (if use_hmm_model then 2 * 40 else 0)

/-- The pairwise transition mask built by the nested loop of
`TMHMM3.__init__` (lines 40, 51-54): a `num_tags × num_tags` all-ones byte
matrix in which entry `(i, k)` is reset to `0` when `(i, k)` is in the
allowed-transition list.  Entries outside the `num_tags` range never exist in
the tensor; the functional model leaves them at `1`. -/
def crf_transitions_mask (nt : Nat) (allowed : List (Nat × Nat)) (i k : Nat) : Nat :=
  if i < nt ∧ k < nt ∧ (i, k) ∈ allowed then 0 else 1

/-- `tensor.masked_fill_(mask, value)` on a vector: positions where the byte
mask is nonzero are overwritten with `value`. -/
def masked_fill_vec (v : Nat → Int) (mask : Nat → Nat) (value : Int) : Nat → Int :=
  fun i => if mask i ≠ 0 then value else v i

/-- `tensor.masked_fill_(mask, value)` on a matrix: positions where the byte
mask is nonzero are overwritten with `value`. -/
def masked_fill_mat (m : Nat → Nat → Int) (mask : Nat → Nat → Nat) (value : Int) :
    Nat → Nat → Int :=
  fun i k => if mask i k ≠ 0 then value else m i k

/-- `TMHMM3.generate_masked_crf_transitions` (lines 91-102): clones the CRF's
start/end/pairwise score tables and applies `masked_fill_` with sentinel
`-100000000` to each one whose mask is not `None`.  The mask triple is ordered
`(start_transitions_mask, transitions_mask, end_transition_mask)` exactly as the
Python tuple unpacking does. -/
def generate_masked_crf_transitions (p : CRFParams)
    (start_transitions_mask : Option (Nat → Nat))
    (transitions_mask : Option (Nat → Nat → Nat))
    (end_transition_mask : Option (Nat → Nat)) : CRFParams where
  start_transitions :=
    match start_transitions_mask with
    | none => p.start_transitions
    | some m => masked_fill_vec p.start_transitions m (-100000000)
  end_transitions :=
    match end_transition_mask with
    | none => p.end_transitions
    | some m => masked_fill_vec p.end_transitions m (-100000000)
  transitions :=
    match transitions_mask with
    | none => p.transitions
    | some m => masked_fill_mat p.transitions m (-100000000)

/-- The CRF-parameter part of `TMHMM3.__init__` (lines 40-66): build the
pairwise mask from the allowed-transition list, call
`generate_masked_crf_transitions` with the triple `(None, mask, None)`, and
install the three returned tables via `initialize_crf_parameters` (whose
non-`None` branches assign the given tensors unchanged).  `p` is the CRF's
parameter state before masking (the library's random initialization). -/
def tmhmm3_init_crf (num_labels : Nat) (use_hmm_model : Bool)
    (allowed_transitions : List (Nat × Nat)) (p : CRFParams) : CRFParams :=
  generate_masked_crf_transitions p none
    (some (crf_transitions_mask (num_tags num_labels use_hmm_model) allowed_transitions))
    none

/-- `is_sp` (lines 294-298). -/
def is_sp (type_id : Nat) : Nat :=
  if type_id = 0 ∨ type_id = 3 then 0 else 1

/-- `is_tm` (lines 300-304). -/
def is_tm (type_id : Nat) : Nat :=
  if type_id = 0 ∨ type_id = 1 then 1 else 0

/-- `get_type_from_tm_sp` (lines 306-317). -/
def get_type_from_tm_sp (t : Nat × Nat) : Nat :=
  if t.1 = 1 then
    if t.2 = 1 then 1 else 0
  else
    if t.2 = 1 then 2 else 3

/-- `TMHMM3.forward` (lines 268-281).  The numeric label pipeline (embed, LSTM
emissions, length mask, CRF decode, label remapping) and the type predictor
(marginal-probability classifiers or the label-rule fallback) are abstract
parameters `pipeline` and `typer`; `forward` composes them and returns the
predicted label paths together with either the predicted types or, when
supplied, `forced_types` (the conditional expression of line 281 binds inside
the tuple). -/
def tmhmm3_forward {α : Type} (pipeline : α → List (List Nat))
    (typer : List (List Nat) → List Nat) (original_aa_string : α)
    (forced_types : Option (List Nat)) : List (List Nat) × List Nat :=
  let predicted_labels := pipeline original_aa_string
  let predicted_types := typer predicted_labels
  (predicted_labels,
    match forced_types with
    | none => predicted_types
    | some f => f)

/-- Claim C1: for tag ids `i, k < num_tags`, the pairwise transition mask is 0
exactly when `(i, k)` is in the allowed set and 1 otherwise, and after masking
every forbidden entry of the CRF pairwise transition matrix equals the sentinel
`-100000000` while every allowed entry keeps its pre-mask value. -/
theorem crf_mask_matches_allowed_set (num_labels : Nat) (use_hmm_model : Bool)
    (allowed : List (Nat × Nat)) (p : CRFParams) (i k : Nat)
    (hi : i < num_tags num_labels use_hmm_model)
    (hk : k < num_tags num_labels use_hmm_model) :
    (crf_transitions_mask (num_tags num_labels use_hmm_model) allowed i k = 0
        ↔ (i, k) ∈ allowed)
    ∧ (crf_transitions_mask (num_tags num_labels use_hmm_model) allowed i k = 1
        ↔ (i, k) ∉ allowed)
    ∧ (tmhmm3_init_crf num_labels use_hmm_model allowed p).transitions i k
        = if (i, k) ∈ allowed then p.transitions i k else -100000000 := by
  unfold tmhmm3_init_crf generate_masked_crf_transitions masked_fill_mat crf_transitions_mask
  by_cases hmem : (i, k) ∈ allowed <;> simp [hi, hk, hmem]

/-- Witness for `crf_mask_matches_allowed_set` at `num_labels = 2`, no hmm
model, allowed set `{(0,1), (1,0)}`, constant base transition matrix 7, at
tag pair `(0, 1)`. -/
theorem crf_mask_matches_allowed_set_witness :
    (0 < num_tags 2 false) ∧ (1 < num_tags 2 false)
    ∧ ((crf_transitions_mask (num_tags 2 false) [(0, 1), (1, 0)] 0 1 = 0
          ↔ ((0 : Nat), (1 : Nat)) ∈ [(0, 1), (1, 0)])
      ∧ (crf_transitions_mask (num_tags 2 false) [(0, 1), (1, 0)] 0 1 = 1
          ↔ ((0 : Nat), (1 : Nat)) ∉ [(0, 1), (1, 0)])
      ∧ (tmhmm3_init_crf 2 false [(0, 1), (1, 0)]
            ⟨fun _ => 0, fun _ => 0, fun _ _ => 7⟩).transitions 0 1
          = if ((0 : Nat), (1 : Nat)) ∈ [(0, 1), (1, 0)] then
              (CRFParams.mk (fun _ => 0) (fun _ => 0) (fun _ _ => 7)).transitions 0 1
            else -100000000) :=
  ⟨by decide, by decide,
    crf_mask_matches_allowed_set 2 false [(0, 1), (1, 0)]
      ⟨fun _ => 0, fun _ => 0, fun _ _ => 7⟩ 0 1 (by decide) (by decide)⟩

/-- Claim C3 counterexample: with the empty allowed-transition set every tag is
forbidden as a first and as a last tag, yet construction leaves the start- and
end-transition vectors untouched: with base value 7 everywhere, entry 0 of both
vectors is still 7, not the sentinel `-100000000`. -/
theorem start_end_transitions_unmasked_cex :
    (tmhmm3_init_crf 2 false [] ⟨fun _ => 7, fun _ => 7, fun _ _ => 0⟩).start_transitions 0 = 7
    ∧ (tmhmm3_init_crf 2 false [] ⟨fun _ => 7, fun _ => 7, fun _ _ => 0⟩).end_transitions 0 = 7
    ∧ (7 : Int) ≠ -100000000 := by
  refine ⟨rfl, rfl, by decide⟩

/-- Claim C3 amended: model construction derives and applies only the pairwise
transition mask; the start- and end-transition masks are passed as `None`, so
the CRF start- and end-transition score vectors are kept unchanged, while the
pairwise matrix is masked with the sentinel. -/
theorem only_pairwise_transitions_masked (num_labels : Nat) (use_hmm_model : Bool)
    (allowed : List (Nat × Nat)) (p : CRFParams) :
    (tmhmm3_init_crf num_labels use_hmm_model allowed p).start_transitions
        = p.start_transitions
    ∧ (tmhmm3_init_crf num_labels use_hmm_model allowed p).end_transitions
        = p.end_transitions
    ∧ ∀ i k, (tmhmm3_init_crf num_labels use_hmm_model allowed p).transitions i k
        = if crf_transitions_mask (num_tags num_labels use_hmm_model) allowed i k ≠ 0
          then -100000000 else p.transitions i k := by
  refine ⟨rfl, rfl, fun i k => rfl⟩

/-- Claim C6: the exact value tables of `is_sp`, `is_tm` and
`get_type_from_tm_sp`. -/
theorem type_helper_tables :
    is_sp 0 = 0 ∧ is_sp 1 = 1 ∧ is_sp 2 = 1 ∧ is_sp 3 = 0
    ∧ is_tm 0 = 1 ∧ is_tm 1 = 1 ∧ is_tm 2 = 0 ∧ is_tm 3 = 0
    ∧ get_type_from_tm_sp (1, 1) = 1 ∧ get_type_from_tm_sp (1, 0) = 0
    ∧ get_type_from_tm_sp (0, 1) = 2 ∧ get_type_from_tm_sp (0, 0) = 3 := by
  decide

/-- Claim C9: when `forced_types` is supplied, the second component of the
tuple returned by `forward` is exactly `forced_types`, the first component (the
decoded label paths) is the same as with `forced_types = None`, and with
`forced_types = None` the second component is the predicted types. -/
theorem forward_forced_types_override {α : Type} (pipeline : α → List (List Nat))
    (typer : List (List Nat) → List Nat) (x : α) (f : List Nat) :
    (tmhmm3_forward pipeline typer x (some f)).2 = f
    ∧ (tmhmm3_forward pipeline typer x (some f)).1
        = (tmhmm3_forward pipeline typer x none).1
    ∧ (tmhmm3_forward pipeline typer x none).2 = typer (pipeline x) :=
  ⟨rfl, rfl, rfl⟩

/-- Claim C10: round-trip of the type encoding — for every protein type
`t < 4`, `get_type_from_tm_sp (is_tm t, is_sp t) = t`. -/
theorem type_encoding_round_trip (t : Nat) (h : t < 4) :
    get_type_from_tm_sp (is_tm t, is_sp t) = t := by
  interval_cases t <;> decide

/-- Witness for `type_encoding_round_trip` at `t = 2`. -/
theorem type_encoding_round_trip_witness :
    2 < 4 ∧ get_type_from_tm_sp (is_tm 2, is_sp 2) = 2 :=
  ⟨by decide, type_encoding_round_trip 2 (by decide)⟩

/-- `torch.t` on a rectangular 2-D tensor given as a list of rows: row `j` of
the result collects entry `j` of every input row. -/
def torch_t (m : List (List Nat)) : List (List Nat) :=
  match m with
  | [] => []
  | r :: _ => (List.range r.length).map fun j => m.map fun row => row.getD j 0

/-- `TMHMM3.batch_sizes_to_mask` (lines 185-191): one row per timestep holding
`[1] * batch_size + [0] * (batch_sizes[0] - batch_size)`, then `torch.t`
transposes the stacked rows. -/
def batch_sizes_to_mask (batch_sizes : List Nat) : List (List Nat) :=
  torch_t (batch_sizes.map fun bs =>
    List.replicate bs 1 ++ List.replicate (batch_sizes.headD 0 - bs) 0)

/-- Index access into the concatenation of two replicated blocks. -/
theorem getD_replicate_append (a b j x y : Nat) :
    (List.replicate a x ++ List.replicate b y).getD j 0
      = if j < a then x else if j < a + b then y else 0 := by
  rw [List.getD_eq_getElem?_getD, List.getElem?_append]
  simp only [List.length_replicate, List.getElem?_replicate]
  rcases Nat.lt_or_ge j a with h | h
  · simp [h]
  · have h1 : ¬ j < a := Nat.not_lt.mpr h
    by_cases h2 : j < a + b
    · have h3 : j - a < b := by omega
      simp [h1, h2, h3]
    · have h3 : ¬ j - a < b := by omega
      simp [h1, h2, h3]

/-- Entry access into `torch_t` of a nonempty matrix: entry `(j, t)` of the
transpose is entry `(t, j)` of the input. -/
theorem torch_t_entry (r : List Nat) (ms : List (List Nat)) (j t : Nat)
    (hj : j < r.length) (ht : t < (r :: ms).length) :
    ((torch_t (r :: ms)).getD j []).getD t 0 = ((r :: ms).getD t []).getD j 0 := by
  have h1 : (torch_t (r :: ms)).getD j []
      = (r :: ms).map fun row => row.getD j 0 := by
    simp only [torch_t]
    rw [List.getD_eq_getElem?_getD, List.getElem?_map, List.getElem?_range hj]
    simp
  rw [h1]
  rw [List.getD_eq_getElem?_getD, List.getElem?_map, List.getElem?_eq_getElem ht]
  simp only [Option.map_some', Option.getD_some]
  rw [List.getD_eq_getElem (r :: ms) [] ht]

/-- Claim C4 counterexample: on the active-batch-size vector `[2,2,2,1,1]` the
code returns the transposed, 2-row-by-5-column matrix
`[[1,1,1,1,1],[1,1,1,0,0]]`, not the claimed 5-row-by-2-column matrix. -/
theorem batch_sizes_to_mask_cex :
    batch_sizes_to_mask [2, 2, 2, 1, 1] = [[1, 1, 1, 1, 1], [1, 1, 1, 0, 0]]
    ∧ batch_sizes_to_mask [2, 2, 2, 1, 1]
        ≠ [[1, 1], [1, 1], [1, 1], [1, 0], [1, 0]] := by
  decide

/-- Claim C4 amended: `batch_sizes_to_mask` returns the transpose of the
claimed layout — sequence-major rows and time-major columns (for `[2,2,2,1,1]`
the 2-by-5 matrix `[[1,1,1,1,1],[1,1,0,0,0]]`), with entry 1 at
(sequence `j`, time `t`) exactly when `j < batch_size[t]`. -/
theorem batch_sizes_to_mask_entry (batch_sizes : List Nat) (j t : Nat)
    (hne : batch_sizes ≠ [])
    (hj : j < batch_sizes.headD 0) (ht : t < batch_sizes.length) :
    ((batch_sizes_to_mask batch_sizes).getD j []).getD t 0
      = if j < batch_sizes.getD t 0 then 1 else 0 := by
  obtain ⟨b, rest, rfl⟩ : ∃ b rest, batch_sizes = b :: rest := by
    cases batch_sizes with
    | nil => exact absurd rfl hne
    | cons b rest => exact ⟨b, rest, rfl⟩
  simp only [List.headD_cons] at hj
  unfold batch_sizes_to_mask
  simp only [List.headD_cons]
  rw [List.map_cons]
  have hjr : j < (List.replicate b 1 ++ List.replicate (b - b) 0).length := by
    simpa using Nat.lt_of_lt_of_le hj (Nat.le_add_right b (b - b))
  rw [torch_t_entry _ _ j t hjr (by simpa using ht)]
  cases t with
  | zero =>
      simp only [List.getD_cons_zero, getD_replicate_append]
      simp [hj]
  | succ u =>
      have hu : u < rest.length := by simpa using ht
      simp only [List.getD_cons_succ]
      rw [List.getD_eq_getElem?_getD
            (rest.map fun bs => List.replicate bs 1 ++ List.replicate (b - bs) 0) u [],
          List.getElem?_map, List.getElem?_eq_getElem hu]
      simp only [Option.map_some', Option.getD_some]
      rw [getD_replicate_append, ← List.getD_eq_getElem rest 0 hu]
      by_cases hc : j < rest.getD u 0
      · simp [hc]
      · simp only [hc, if_false]
        split <;> rfl

/-- Witness for `batch_sizes_to_mask_entry` on batch sizes `[2,2,2,1,1]` at
sequence 1, time 3. -/
theorem batch_sizes_to_mask_entry_witness :
    ([2, 2, 2, 1, 1] : List Nat) ≠ []
    ∧ 1 < ([2, 2, 2, 1, 1] : List Nat).headD 0
    ∧ 3 < ([2, 2, 2, 1, 1] : List Nat).length
    ∧ ((batch_sizes_to_mask [2, 2, 2, 1, 1]).getD 1 []).getD 3 0
        = if 1 < ([2, 2, 2, 1, 1] : List Nat).getD 3 0 then 1 else 0 :=
  ⟨by decide, by decide, by decide,
    batch_sizes_to_mask_entry [2, 2, 2, 1, 1] 1 3 (by decide) (by decide) (by decide)⟩

/-- The three residue-encoding modes selected by the `embedding` string of
`TMHMM3.encode_amino_acid` (lines 110-135). -/
inductive Embedding
  | BLOSUM62
  | ONEHOT
  | PYTORCH
  deriving DecidableEq

/-- The fixed 24-symbol alphabet
`A,R,N,D,C,Q,E,G,H,I,L,K,M,F,P,S,T,W,Y,V,B,Z,X,U` (lines 115, 123, 132). -/
def amino_acid_alphabet : List Char :=
  ['A', 'R', 'N', 'D', 'C', 'Q', 'E', 'G', 'H', 'I', 'L', 'K', 'M', 'F', 'P',
   'S', 'T', 'W', 'Y', 'V', 'B', 'Z', 'X', 'U']

/-- The possible outcomes of a successful `encode_amino_acid` call: a numeric
row (blosum or one-hot modes), an integer index (PYTORCH mode), or Python's
implicit `None` (falling off the end of the PYTORCH loop). -/
inductive EncodeResult
  | vec (v : List Int)
  | index (i : Nat)
  | pyNone
  deriving DecidableEq

/-- The PYTORCH-mode loop (lines 133-135): scan the alphabet, returning the
position of the first symbol equal to `letter`; no match means the function
falls off the end, returning Python's `None` (modelled by the caller). -/
def find_key_id : List Char → Nat → Char → Option Nat
  | [], _, _ => none
  | k :: rest, idx, letter =>
      if k = letter then some idx else find_key_id rest (idx + 1) letter

/-- `TMHMM3.encode_amino_acid` (lines 110-135).  The numeric rows of the
blosum62 table live in a csv file outside the repository, so they are a
parameter `blosum_row`; the key map built from them (lines 113-120) has exactly
the 24 alphabet symbols as keys, so looking up any other symbol raises
`KeyError`, modelled as `none` (a raised exception).  ONEHOT mode always
returns the indicator vector produced by its scan, and PYTORCH mode returns the
index of the first matching symbol or Python's `None`. -/
def encode_amino_acid (embedding : Embedding) (blosum_row : Char → List Int)
    (letter : Char) : Option EncodeResult :=
  match embedding with
  | .BLOSUM62 =>
      if letter ∈ amino_acid_alphabet then some (.vec (blosum_row letter)) else none
  | .ONEHOT =>
      some (.vec (amino_acid_alphabet.map fun k => if k = letter then 1 else 0))
  | .PYTORCH =>
      match find_key_id amino_acid_alphabet 0 letter with
      | some i => some (.index i)
      | none => some .pyNone

/-- Claim C5 counterexample: the symbol `@` is outside the 24-symbol alphabet,
yet ONEHOT mode succeeds with the all-zero 24-vector and PYTORCH mode succeeds
with Python's `None`; neither fails with an error. -/
theorem encode_unknown_symbol_cex :
    ('@' ∉ amino_acid_alphabet)
    ∧ encode_amino_acid .ONEHOT (fun _ => []) '@'
        = some (.vec (List.replicate 24 0))
    ∧ encode_amino_acid .PYTORCH (fun _ => []) '@' = some .pyNone := by
  decide

/-- `find_key_id` finds nothing when the letter is not in the scanned list. -/
theorem find_key_id_eq_none (l : List Char) (letter : Char) (h : letter ∉ l) :
    ∀ idx, find_key_id l idx letter = none := by
  induction l with
  | nil => intro idx; rfl
  | cons a rest ih =>
      intro idx
      have ha : ¬ a = letter := by
        rintro rfl
        exact h (List.mem_cons_self a rest)
      have hrest : letter ∉ rest := fun hm => h (List.mem_cons_of_mem a hm)
      simp [find_key_id, ha, ih hrest]

/-- Claim C5 amended: only substitution-matrix (BLOSUM62) mode fails on a
symbol outside the 24-symbol alphabet; one-hot mode silently returns the
all-zero 24-vector, and index (PYTORCH) mode silently returns Python's
`None`. -/
theorem encode_unknown_symbol (letter : Char) (blosum_row : Char → List Int)
    (h : letter ∉ amino_acid_alphabet) :
    encode_amino_acid .BLOSUM62 blosum_row letter = none
    ∧ encode_amino_acid .ONEHOT blosum_row letter
        = some (.vec (List.replicate 24 0))
    ∧ encode_amino_acid .PYTORCH blosum_row letter = some .pyNone := by
  refine ⟨by simp [encode_amino_acid, h], ?_, ?_⟩
  · have hmap : amino_acid_alphabet.map (fun k => if k = letter then (1 : Int) else 0)
        = List.replicate 24 (0 : Int) := by
      have hz : amino_acid_alphabet.map (fun k => if k = letter then (1 : Int) else 0)
          = amino_acid_alphabet.map (fun _ => (0 : Int)) := by
        apply List.map_congr_left
        intro a ha
        have : ¬ a = letter := by
          rintro rfl
          exact h ha
        simp [this]
      rw [hz, List.map_const']
      rfl
    simp [encode_amino_acid, hmap]
  · simp [encode_amino_acid, find_key_id_eq_none amino_acid_alphabet letter h 0]

/-- Witness for `encode_unknown_symbol` at the symbol `@`. -/
theorem encode_unknown_symbol_witness :
    ('@' ∉ amino_acid_alphabet)
    ∧ (encode_amino_acid .BLOSUM62 (fun _ => []) '@' = none
      ∧ encode_amino_acid .ONEHOT (fun _ => []) '@'
          = some (.vec (List.replicate 24 0))
      ∧ encode_amino_acid .PYTORCH (fun _ => []) '@' = some .pyNone) :=
  ⟨by decide, encode_unknown_symbol '@' (fun _ => []) (by decide)⟩

/-- The hmm-model emission augmentation of `_get_network_emissions`
(lines 173-181), per packed-timestep row: `torch.index_select` picks columns 0
and 1 of the base emission, `expand(-1, 40)` replicates each one 40 times, and
`torch.cat(..., 1)` appends the two blocks after the base columns. -/
def hmm_augment_row (row : List Int) : List Int :=
  row ++ List.replicate 40 (row.getD 0 0) ++ List.replicate 40 (row.getD 1 0)

/-- Claim C7: with the augmented tag model enabled the tag alphabet has size
`num_labels + 80`, and every augmented emission row has width `num_tags`, keeps
the base `num_labels` columns first and unchanged, and for every `j < 40` has
column `num_labels + j` equal to base column 0 and column `num_labels + 40 + j`
equal to base column 1. -/
theorem hmm_augmented_emissions (num_labels : Nat) (row : List Int)
    (hrow : row.length = num_labels) :
    num_tags num_labels true = num_labels + 80
    ∧ (hmm_augment_row row).length = num_tags num_labels true
    ∧ (∀ c, c < num_labels → (hmm_augment_row row).getD c 0 = row.getD c 0)
    ∧ (∀ j, j < 40 → (hmm_augment_row row).getD (num_labels + j) 0 = row.getD 0 0)
    ∧ (∀ j, j < 40 →
        (hmm_augment_row row).getD (num_labels + 40 + j) 0 = row.getD 1 0) := by
  refine ⟨by simp [num_tags], by simp [hmm_augment_row, num_tags, hrow], ?_, ?_, ?_⟩
  · intro c hc
    have hc1 : c < (row ++ List.replicate 40 (row.getD 0 0)).length := by
      simp [hrow]; omega
    have hc2 : c < row.length := by omega
    rw [hmm_augment_row, List.getD_append _ _ _ _ hc1, List.getD_append _ _ _ _ hc2]
  · intro j hj
    have h1 : num_labels + j < (row ++ List.replicate 40 (row.getD 0 0)).length := by
      simp [hrow]; omega
    have h2 : row.length ≤ num_labels + j := by omega
    rw [hmm_augment_row, List.getD_append _ _ _ _ h1, List.getD_append_right _ _ _ _ h2]
    rw [List.getD_eq_getElem?_getD, List.getElem?_replicate]
    have : num_labels + j - row.length < 40 := by omega
    simp [this]
  · intro j hj
    have h1 : (row ++ List.replicate 40 (row.getD 0 0)).length ≤ num_labels + 40 + j := by
      simp [hrow]
    rw [hmm_augment_row, List.getD_append_right _ _ _ _ h1]
    rw [List.getD_eq_getElem?_getD, List.getElem?_replicate]
    have h2 : num_labels + 40 + j - (row.length + 40) < 40 := by omega
    simp [h2]

/-- Witness for `hmm_augmented_emissions` on the base emission row
`[3, 4, 5]` with 3 labels. -/
theorem hmm_augmented_emissions_witness :
    ([3, 4, 5] : List Int).length = 3
    ∧ (num_tags 3 true = 3 + 80
      ∧ (hmm_augment_row [3, 4, 5]).length = num_tags 3 true
      ∧ (∀ c, c < 3 →
          (hmm_augment_row [3, 4, 5]).getD c 0 = ([3, 4, 5] : List Int).getD c 0)
      ∧ (∀ j, j < 40 →
          (hmm_augment_row [3, 4, 5]).getD (3 + j) 0 = ([3, 4, 5] : List Int).getD 0 0)
      ∧ (∀ j, j < 40 →
          (hmm_augment_row [3, 4, 5]).getD (3 + 40 + j) 0
            = ([3, 4, 5] : List Int).getD 1 0)) :=
  ⟨by decide, hmm_augmented_emissions 3 [3, 4, 5] (by decide)⟩

/-- Sum of `f` over the index slice `[lo, hi)` — models `torch.sum` over a
class-dimension slice. -/
def slice_sum (f : Nat → Rat) (lo hi : Nat) : Rat :=
  ((List.range (hi - lo)).map fun j => f (lo + j)).sum

/-- The slice-and-overwrite step of `calculate_margin_probabilities`
(lines 238-241): when the class count `C` is not 5, class 0 is overwritten with
the sum of the class slice `5:45` and class 1 with the sum of the slice
`45:85` (slices are truncated at `C` as in torch), all other classes are kept;
the subsequent restriction to the first 5 classes is by index discipline (only
classes `< 5` are read afterwards). -/
def collapse_margins (C : Nat) (marg : Nat → Nat → Rat) : Nat → Nat → Rat :=
  fun t c =>
    if C = 5 then marg t c
    else if c = 0 then slice_sum (marg t) 5 (min 45 C)
    else if c = 1 then slice_sum (marg t) 45 (min 85 C)
    else marg t c

/-- `torch.mean` over the first `T` timesteps of a per-timestep value. -/
def time_mean (T : Nat) (f : Nat → Rat) : Rat :=
  ((List.range T).map f).sum / (T : Rat)

/-- `TMHMM3.calculate_margin_probabilities` (lines 232-245) for one sequence of
length `T` whose softmaxed marginal tensor is `marg` with `C` classes (the LSTM
emissions, the CRF marginal computation and the softmax producing `marg` are
upstream of the modelled code): collapse the augmented classes when `C ≠ 5`,
take the per-class mean over all timesteps, and overwrite class 2 with the mean
of its first `min 50 T` timesteps (`marginal_probabilities[:50, :, 2]`). -/
def calculate_margin_probabilities (T C : Nat) (marg : Nat → Nat → Rat) :
    Nat → Rat :=
  fun c =>
    if c = 2 then time_mean (min 50 T) fun t => collapse_margins C marg t 2
    else time_mean T fun t => collapse_margins C marg t c

/-- Claim C8: with an 85-class marginal tensor (wider than 5), the feature
vector has components 3 and 4 equal to the per-class means over all timesteps,
component 2 equal to the mean of class 2 over the first 50 timesteps only, and
components 0 and 1 equal to the per-timestep sums of the augmented sub-tag
classes 5..44 resp. 45..84, averaged over all timesteps. -/
theorem margin_features_spec (T : Nat) (marg : Nat → Nat → Rat) (hT : 50 ≤ T) :
    calculate_margin_probabilities T 85 marg 3
        = ((List.range T).map fun t => marg t 3).sum / (T : Rat)
    ∧ calculate_margin_probabilities T 85 marg 4
        = ((List.range T).map fun t => marg t 4).sum / (T : Rat)
    ∧ calculate_margin_probabilities T 85 marg 2
        = ((List.range 50).map fun t => marg t 2).sum / (50 : Rat)
    ∧ calculate_margin_probabilities T 85 marg 0
        = ((List.range T).map fun t =>
            ((List.range 40).map fun j => marg t (5 + j)).sum).sum / (T : Rat)
    ∧ calculate_margin_probabilities T 85 marg 1
        = ((List.range T).map fun t =>
            ((List.range 40).map fun j => marg t (45 + j)).sum).sum / (T : Rat) := by
  have h50 : min 50 T = 50 := Nat.min_eq_left hT
  refine ⟨?_, ?_, ?_, ?_, ?_⟩ <;>
    simp [calculate_margin_probabilities, time_mean, collapse_margins, slice_sum, h50]

/-- Witness for `margin_features_spec` at `T = 50` with the zero marginal
tensor. -/
theorem margin_features_spec_witness :
    50 ≤ 50
    ∧ (calculate_margin_probabilities 50 85 (fun _ _ => 0) 3
          = ((List.range 50).map fun t => (fun _ _ => (0 : Rat)) t 3).sum / (50 : Rat)
      ∧ calculate_margin_probabilities 50 85 (fun _ _ => 0) 4
          = ((List.range 50).map fun t => (fun _ _ => (0 : Rat)) t 4).sum / (50 : Rat)
      ∧ calculate_margin_probabilities 50 85 (fun _ _ => 0) 2
          = ((List.range 50).map fun t => (fun _ _ => (0 : Rat)) t 2).sum / (50 : Rat)
      ∧ calculate_margin_probabilities 50 85 (fun _ _ => 0) 0
          = ((List.range 50).map fun t =>
              ((List.range 40).map fun j => (fun _ _ => (0 : Rat)) t (5 + j)).sum).sum
              / (50 : Rat)
      ∧ calculate_margin_probabilities 50 85 (fun _ _ => 0) 1
          = ((List.range 50).map fun t =>
              ((List.range 40).map fun j => (fun _ _ => (0 : Rat)) t (45 + j)).sum).sum
              / (50 : Rat)) :=
  ⟨by decide, margin_features_spec 50 (fun _ _ => 0) (by decide)⟩

/-- Modelled from the spec: the search space of the CRF decoder — all candidate
tag paths of a given length over the tag alphabet `[0, num_tags)`. -/
def allPaths (n : Nat) : Nat → List (List Nat)
  | 0 => [[]]
  | l + 1 => (List.range n).flatMap fun t => (allPaths n l).map fun q => t :: q

/-- The pairwise-transition part of a path's CRF score. -/
def transSum (trans : Nat → Nat → Int) : List Nat → Int
  | a :: b :: rest => trans a b + transSum trans (b :: rest)
  | _ => 0

/-- The emission part of a path's CRF score: each timestep's emission row
evaluated at that timestep's tag. -/
def emSum : List (Nat → Int) → List Nat → Int
  | e :: es, t :: ts => e t + emSum es ts
  | _, _ => 0

/-- Modelled from the spec: the score of one tag path under a linear-chain
CRF — start score of the first tag, plus per-timestep emission scores, plus
pairwise transition scores, plus end score of the last tag. -/
def pathScore (startT endT : Nat → Int) (trans : Nat → Nat → Int)
    (em : List (Nat → Int)) (p : List Nat) : Int :=
  (match p with
    | [] => 0
    | t :: _ => startT t)
  + emSum em p + transSum trans p
  + (match p.getLast? with
    | none => 0
    | some t => endT t)

/-- First-encountered maximum of a list of paths against a running best: a
later path replaces the best only when its score is strictly greater. -/
def bestPath (score : List Nat → Int) : List (List Nat) → List Nat → List Nat
  | [], best => best
  | q :: qs, best => bestPath score qs (if score best < score q then q else best)

/-- Modelled from the spec: `CRF.decode` of the external `pytorchcrf` library
(not under src) is specified as "Viterbi max-score path search; ties broken by
the decoder's natural scan order (first-encountered maximum)" — among all tag
paths of the emission's length over `[0, num_tags)` it returns the first one of
maximum total score. -/
def crf_decode (n : Nat) (startT endT : Nat → Int) (trans : Nat → Nat → Int)
    (em : List (Nat → Int)) : List Nat :=
  match allPaths n em.length with
  | [] => []
  | q :: qs => bestPath (pathScore startT endT trans em) qs q

/-- Whether a path contains tag `i` immediately followed by tag `k`. -/
def containsTransition (i k : Nat) : List Nat → Bool
  | a :: b :: rest => (a == i && b == k) || containsTransition i k (b :: rest)
  | _ => false

/-- Whether every adjacent tag pair of a path is in the allowed-transition
list. -/
def pathAllowed (allowed : List (Nat × Nat)) : List Nat → Bool
  | a :: b :: rest => decide ((a, b) ∈ allowed) && pathAllowed allowed (b :: rest)
  | _ => true

/-- Entrywise characterization of the masked pairwise transition matrix built
by model construction. -/
theorem tmhmm3_masked_transitions (num_labels : Nat) (use_hmm_model : Bool)
    (allowed : List (Nat × Nat)) (p : CRFParams) (i k : Nat) :
    (tmhmm3_init_crf num_labels use_hmm_model allowed p).transitions i k
      = if i < num_tags num_labels use_hmm_model
            ∧ k < num_tags num_labels use_hmm_model ∧ (i, k) ∈ allowed
        then p.transitions i k else -100000000 := by
  simp only [tmhmm3_init_crf, generate_masked_crf_transitions, masked_fill_mat,
    crf_transitions_mask]
  by_cases h : i < num_tags num_labels use_hmm_model
      ∧ k < num_tags num_labels use_hmm_model ∧ (i, k) ∈ allowed <;>
    simp [h]

/-- Every member of `allPaths n L` has length `L` and tags below `n`. -/
theorem allPaths_mem (n : Nat) :
    ∀ (L : Nat) (q : List Nat), q ∈ allPaths n L →
      q.length = L ∧ ∀ x ∈ q, x < n := by
  intro L
  induction L with
  | zero =>
      intro q hq
      simp only [allPaths, List.mem_singleton] at hq
      subst hq
      simp
  | succ l ih =>
      intro q hq
      simp only [allPaths, List.mem_flatMap, List.mem_map, List.mem_range] at hq
      obtain ⟨t, ht, r, hr, rfl⟩ := hq
      obtain ⟨hlen, hmem⟩ := ih r hr
      refine ⟨by simp [hlen], ?_⟩
      intro x hx
      rcases List.mem_cons.mp hx with rfl | hx
      · exact ht
      · exact hmem x hx

/-- `bestPath` returns the running best or a member of the scanned list. -/
theorem bestPath_mem (score : List Nat → Int) :
    ∀ (qs : List (List Nat)) (best : List Nat),
      bestPath score qs best ∈ best :: qs := by
  intro qs
  induction qs with
  | nil => intro best; simp [bestPath]
  | cons q qs ih =>
      intro best
      simp only [bestPath]
      rcases List.mem_cons.mp (ih (if score best < score q then q else best))
        with heq | hmem
      · rw [heq]
        by_cases hc : score best < score q <;> simp [hc]
      · exact List.mem_cons_of_mem _ (List.mem_cons_of_mem _ hmem)

/-- The path returned by `bestPath` scores at least as high as the running
best and every scanned path. -/
theorem bestPath_ge (score : List Nat → Int) :
    ∀ (qs : List (List Nat)) (best r : List Nat),
      r ∈ best :: qs → score r ≤ score (bestPath score qs best) := by
  intro qs
  induction qs with
  | nil =>
      intro best r hr
      rcases List.mem_cons.mp hr with rfl | h
      · simp [bestPath]
      · simp at h
  | cons q qs ih =>
      intro best r hr
      simp only [bestPath]
      have hbest : score best ≤ score (if score best < score q then q else best) := by
        split <;> omega
      have hq : score q ≤ score (if score best < score q then q else best) := by
        split <;> omega
      rcases List.mem_cons.mp hr with rfl | h
      · exact le_trans hbest (ih _ _ (List.mem_cons_self _ _))
      · rcases List.mem_cons.mp h with rfl | h2
        · exact le_trans hq (ih _ _ (List.mem_cons_self _ _))
        · exact ih _ r (List.mem_cons_of_mem _ h2)

/-- Upper bound on the transition score of any in-range path when every
in-range matrix entry is at most `B`. -/
theorem transSum_le (M : Nat → Nat → Int) (B n : Nat)
    (hB : ∀ i, i < n → ∀ k, k < n → M i k ≤ (B : Int)) :
    ∀ q : List Nat, (∀ x ∈ q, x < n) → transSum M q ≤ (q.length : Int) * B := by
  intro q
  induction q with
  | nil => intro _; simp [transSum]
  | cons a rest ih =>
      intro hmem
      cases rest with
      | nil =>
          simp only [transSum, List.length_cons, List.length_nil]
          have := Int.natCast_nonneg B
          nlinarith
      | cons b rest2 =>
          have ha : a < n := hmem a (List.mem_cons_self a _)
          have hb : b < n := hmem b (List.mem_cons_of_mem a (List.mem_cons_self b _))
          have htail : ∀ x ∈ b :: rest2, x < n :=
            fun x hx => hmem x (List.mem_cons_of_mem a hx)
          have h1 := hB a ha b hb
          have h2 := ih htail
          simp only [transSum, List.length_cons] at h2 ⊢
          push_cast at h2 ⊢
          nlinarith [Int.natCast_nonneg B]

/-- A path with at least one forbidden adjacent pair pays the sentinel at
least once: its transition score is at most `length * B - 100000000`. -/
theorem transSum_forbidden_le (M : Nat → Nat → Int) (allowed : List (Nat × Nat))
    (B n : Nat)
    (hle : ∀ i, i < n → ∀ k, k < n → M i k ≤ (B : Int))
    (hforb : ∀ i k, (i, k) ∉ allowed → M i k = -100000000) :
    ∀ q : List Nat, (∀ x ∈ q, x < n) → pathAllowed allowed q = false →
      transSum M q ≤ (q.length : Int) * B - 100000000 := by
  intro q
  induction q with
  | nil => intro _ hpa; simp [pathAllowed] at hpa
  | cons a rest ih =>
      intro hmem hpa
      cases rest with
      | nil => simp [pathAllowed] at hpa
      | cons b rest2 =>
          have ha : a < n := hmem a (List.mem_cons_self a _)
          have hb : b < n := hmem b (List.mem_cons_of_mem a (List.mem_cons_self b _))
          have htail : ∀ x ∈ b :: rest2, x < n :=
            fun x hx => hmem x (List.mem_cons_of_mem a hx)
          simp only [pathAllowed, Bool.and_eq_false_iff, decide_eq_false_iff_not] at hpa
          rcases hpa with hab | htl
          · have h1 : M a b = -100000000 := hforb a b hab
            have h2 := transSum_le M B n hle (b :: rest2) htail
            simp only [transSum, List.length_cons] at h2 ⊢
            push_cast at h2 ⊢
            nlinarith [Int.natCast_nonneg B]
          · have h1 : M a b ≤ (B : Int) := hle a ha b hb
            have h2 := ih htail htl
            simp only [transSum, List.length_cons] at h2 ⊢
            push_cast at h2 ⊢
            nlinarith [Int.natCast_nonneg B]

/-- Lower bound on the transition score of an in-range path all of whose
adjacent pairs are allowed. -/
theorem transSum_ge_of_allowed (M : Nat → Nat → Int) (allowed : List (Nat × Nat))
    (B n : Nat)
    (hge : ∀ i, i < n → ∀ k, k < n → (i, k) ∈ allowed → -(B : Int) ≤ M i k) :
    ∀ q : List Nat, (∀ x ∈ q, x < n) → pathAllowed allowed q = true →
      -((q.length : Int) * B) ≤ transSum M q := by
  intro q
  induction q with
  | nil => intro _ _; simp [transSum]
  | cons a rest ih =>
      intro hmem hpa
      cases rest with
      | nil =>
          simp only [transSum, List.length_cons, List.length_nil]
          have := Int.natCast_nonneg B
          nlinarith
      | cons b rest2 =>
          have ha : a < n := hmem a (List.mem_cons_self a _)
          have hb : b < n := hmem b (List.mem_cons_of_mem a (List.mem_cons_self b _))
          have htail : ∀ x ∈ b :: rest2, x < n :=
            fun x hx => hmem x (List.mem_cons_of_mem a hx)
          simp only [pathAllowed, Bool.and_eq_true, decide_eq_true_eq] at hpa
          obtain ⟨hab, htl⟩ := hpa
          have h1 : -(B : Int) ≤ M a b := hge a ha b hb hab
          have h2 := ih htail htl
          simp only [transSum, List.length_cons] at h2 ⊢
          push_cast at h2 ⊢
          nlinarith [Int.natCast_nonneg B]

/-- The emission score of an in-range path is bounded by
`(number of timesteps) * B` in absolute value. -/
theorem emSum_abs_le (B n : Nat) :
    ∀ (em : List (Nat → Int)) (q : List Nat),
      (∀ e ∈ em, ∀ t, t < n → |e t| ≤ (B : Int)) → (∀ x ∈ q, x < n) →
      |emSum em q| ≤ (em.length : Int) * B := by
  intro em
  induction em with
  | nil =>
      intro q _ _
      simp [emSum]
  | cons e es ih =>
      intro q hem hq
      cases q with
      | nil =>
          simp only [emSum, List.length_cons]
          rw [abs_zero]
          have := Int.natCast_nonneg B
          push_cast
          nlinarith [Int.natCast_nonneg (es.length)]
      | cons t ts =>
          have ht : t < n := hq t (List.mem_cons_self t _)
          have h1 : |e t| ≤ (B : Int) := hem e (List.mem_cons_self e _) t ht
          have h2 : |emSum es ts| ≤ (es.length : Int) * B :=
            ih ts (fun e2 he2 => hem e2 (List.mem_cons_of_mem _ he2))
              (fun x hx => hq x (List.mem_cons_of_mem _ hx))
          simp only [emSum, List.length_cons]
          push_cast
          calc |e t + emSum es ts| ≤ |e t| + |emSum es ts| := abs_add _ _
            _ ≤ (B : Int) + (es.length : Int) * B := by linarith
            _ = ((es.length : Int) + 1) * B := by ring

/-- A path with a forbidden pair scores at most `(2L + 2) * B - 100000000`. -/
theorem pathScore_le_of_forbidden (n B : Nat) (allowed : List (Nat × Nat))
    (startT endT : Nat → Int) (M : Nat → Nat → Int) (em : List (Nat → Int))
    (hstart : ∀ t, t < n → |startT t| ≤ (B : Int))
    (hend : ∀ t, t < n → |endT t| ≤ (B : Int))
    (hMle : ∀ i, i < n → ∀ k, k < n → M i k ≤ (B : Int))
    (hforb : ∀ i k, (i, k) ∉ allowed → M i k = -100000000)
    (hem : ∀ e ∈ em, ∀ t, t < n → |e t| ≤ (B : Int))
    (q : List Nat) (hq : ∀ x ∈ q, x < n) (hlen : q.length = em.length)
    (hpa : pathAllowed allowed q = false) :
    pathScore startT endT M em q
      ≤ ((2 * em.length + 2 : Nat) : Int) * B - 100000000 := by
  cases q with
  | nil => simp [pathAllowed] at hpa
  | cons a rest =>
      cases rest with
      | nil => simp [pathAllowed] at hpa
      | cons b rest2 =>
          have hne : (a :: b :: rest2) ≠ [] := by simp
          have hlast : (a :: b :: rest2).getLast? = some ((a :: b :: rest2).getLast hne) :=
            List.getLast?_eq_getLast _ hne
          have hlastmem : (a :: b :: rest2).getLast hne ∈ a :: b :: rest2 :=
            List.getLast_mem hne
          have ha : a < n := hq a (List.mem_cons_self a _)
          have h1 : startT a ≤ (B : Int) := le_trans (le_abs_self _) (hstart a ha)
          have h4 : endT ((a :: b :: rest2).getLast hne) ≤ (B : Int) :=
            le_trans (le_abs_self _) (hend _ (hq _ hlastmem))
          have h2 : emSum em (a :: b :: rest2) ≤ (em.length : Int) * B :=
            (abs_le.mp (emSum_abs_le B n em _ hem hq)).2
          have h3 : transSum M (a :: b :: rest2)
              ≤ (((a :: b :: rest2).length : Nat) : Int) * B - 100000000 :=
            transSum_forbidden_le M allowed B n hMle hforb _ hq hpa
          rw [hlen] at h3
          simp only [pathScore, hlast]
          push_cast at h3 ⊢
          linarith [h1, h2, h3, h4]

/-- A path using only allowed transitions scores at least `-(2L + 2) * B`. -/
theorem pathScore_ge_of_allowed (n B : Nat) (allowed : List (Nat × Nat))
    (startT endT : Nat → Int) (M : Nat → Nat → Int) (em : List (Nat → Int))
    (hstart : ∀ t, t < n → |startT t| ≤ (B : Int))
    (hend : ∀ t, t < n → |endT t| ≤ (B : Int))
    (hMge : ∀ i, i < n → ∀ k, k < n → (i, k) ∈ allowed → -(B : Int) ≤ M i k)
    (hem : ∀ e ∈ em, ∀ t, t < n → |e t| ≤ (B : Int))
    (q : List Nat) (hq : ∀ x ∈ q, x < n) (hlen : q.length = em.length)
    (hpa : pathAllowed allowed q = true) :
    -(((2 * em.length + 2 : Nat) : Int) * B) ≤ pathScore startT endT M em q := by
  cases q with
  | nil =>
      have hemnil : em = [] := by
        have : em.length = 0 := by simpa using hlen.symm
        exact List.length_eq_zero.mp this
      subst hemnil
      simp only [pathScore, emSum, transSum, List.getLast?_nil, List.length_nil]
      have := Int.natCast_nonneg B
      push_cast
      nlinarith
  | cons a rest =>
      have hne : (a :: rest) ≠ [] := by simp
      have hlast : (a :: rest).getLast? = some ((a :: rest).getLast hne) :=
        List.getLast?_eq_getLast _ hne
      have hlastmem : (a :: rest).getLast hne ∈ a :: rest := List.getLast_mem hne
      have ha : a < n := hq a (List.mem_cons_self a _)
      have h1 : -(B : Int) ≤ startT a := (abs_le.mp (hstart a ha)).1
      have h4 : -(B : Int) ≤ endT ((a :: rest).getLast hne) :=
        (abs_le.mp (hend _ (hq _ hlastmem))).1
      have h2 : -((em.length : Int) * B) ≤ emSum em (a :: rest) := by
        have := (abs_le.mp (emSum_abs_le B n em _ hem hq)).1
        linarith
      have h3 : -((((a :: rest).length : Nat) : Int) * B) ≤ transSum M (a :: rest) :=
        transSum_ge_of_allowed M allowed B n hMge _ hq hpa
      rw [hlen] at h3
      simp only [pathScore, hlast]
      push_cast at h3 ⊢
      linarith [h1, h2, h3, h4]

/-- The path returned by the spec-modelled Viterbi search uses only allowed
transitions, provided the sentinel dwarfs all parameter and emission
magnitudes and at least one fully-allowed candidate path exists. -/
theorem crf_decode_all_allowed (n B : Nat) (allowed : List (Nat × Nat))
    (startT endT : Nat → Int) (M : Nat → Nat → Int) (em : List (Nat → Int))
    (hstart : ∀ t, t < n → |startT t| ≤ (B : Int))
    (hend : ∀ t, t < n → |endT t| ≤ (B : Int))
    (hMle : ∀ i, i < n → ∀ k, k < n → M i k ≤ (B : Int))
    (hMge : ∀ i, i < n → ∀ k, k < n → (i, k) ∈ allowed → -(B : Int) ≤ M i k)
    (hforb : ∀ i k, (i, k) ∉ allowed → M i k = -100000000)
    (hem : ∀ e ∈ em, ∀ t, t < n → |e t| ≤ (B : Int))
    (hB : (4 * em.length + 4) * B < 100000000)
    (hex : ∃ q ∈ allPaths n em.length, pathAllowed allowed q = true) :
    pathAllowed allowed (crf_decode n startT endT M em) = true := by
  obtain ⟨q, hqmem, hqall⟩ := hex
  obtain ⟨p0, ps, hcons⟩ : ∃ p0 ps, allPaths n em.length = p0 :: ps := by
    cases hall : allPaths n em.length with
    | nil =>
        rw [hall] at hqmem
        exact absurd hqmem (List.not_mem_nil q)
    | cons p0 ps => exact ⟨p0, ps, rfl⟩
  have hdec : crf_decode n startT endT M em
      = bestPath (pathScore startT endT M em) ps p0 := by
    unfold crf_decode
    rw [hcons]
  rw [hdec]
  have hPmem : bestPath (pathScore startT endT M em) ps p0 ∈ allPaths n em.length := by
    rw [hcons]
    exact bestPath_mem _ ps p0
  obtain ⟨hPlen, hPlt⟩ := allPaths_mem n em.length _ hPmem
  obtain ⟨hqlen, hqlt⟩ := allPaths_mem n em.length q hqmem
  have hqmem2 : q ∈ p0 :: ps := by
    rw [← hcons]
    exact hqmem
  have hscore := bestPath_ge (pathScore startT endT M em) ps p0 q hqmem2
  cases hPA : pathAllowed allowed (bestPath (pathScore startT endT M em) ps p0) with
  | true => rfl
  | false =>
      exfalso
      have hub := pathScore_le_of_forbidden n B allowed startT endT M em
        hstart hend hMle hforb hem _ hPlt hPlen hPA
      have hlb := pathScore_ge_of_allowed n B allowed startT endT M em
        hstart hend hMge hem q hqlt hqlen hqall
      have hBi : ((4 * em.length + 4 : Nat) : Int) * B < 100000000 := by
        exact_mod_cast hB
      push_cast at hub hlb hBi
      linarith [hscore]

/-- A path whose adjacent pairs are all allowed never contains a pair that is
not allowed. -/
theorem containsTransition_eq_false_of_allowed (allowed : List (Nat × Nat))
    (i k : Nat) (hik : (i, k) ∉ allowed) :
    ∀ q : List Nat, pathAllowed allowed q = true →
      containsTransition i k q = false := by
  intro q
  induction q with
  | nil => intro _; rfl
  | cons a rest ih =>
      cases rest with
      | nil => intro _; rfl
      | cons b rest2 =>
          intro hpa
          simp only [pathAllowed, Bool.and_eq_true, decide_eq_true_eq] at hpa
          obtain ⟨hab, htl⟩ := hpa
          simp only [containsTransition, ih htl, Bool.or_false]
          by_cases hai : a = i
          · by_cases hbk : b = k
            · exact absurd (hai ▸ hbk ▸ hab) hik
            · simp [hbk]
          · simp [hai]

/-- Claim C2 counterexample: with 2 tags, allowed set `{(0,0), (0,1), (1,1)}`
(so fully-allowed paths exist) and zero base CRF parameters, emissions of
magnitude 3·10^8 outweigh the finite sentinel -10^8: the decoded path is
`[1, 0]`, which crosses the forbidden transition `(1, 0)`. -/
theorem crf_decode_forbidden_cex :
    (((1 : Nat), (0 : Nat)) ∉ ([(0, 0), (0, 1), (1, 1)] : List (Nat × Nat)))
    ∧ containsTransition 1 0
        (crf_decode (num_tags 2 false)
          (fun _ => 0) (fun _ => 0)
          (tmhmm3_init_crf 2 false [(0, 0), (0, 1), (1, 1)]
            ⟨fun _ => 0, fun _ => 0, fun _ _ => 0⟩).transitions
          [fun t => if t = 1 then 300000000 else 0,
           fun t => if t = 0 then 300000000 else 0]) = true := by
  decide

/-- Claim C2 amended: the masked CRF's Viterbi decode (spec-modelled, see
`crf_decode`) never produces tag `i` immediately followed by tag `k` for a
disallowed pair `(i, k)`, provided (i) the emission scores and the pre-mask CRF
parameters are bounded by `B` with `(4 * length + 4) * B < 100000000` — the
sentinel is finite, so unboundedly large emissions can outweigh it — and
(ii) at least one path using only allowed transitions exists — otherwise every
decodable path of length ≥ 2 necessarily crosses some forbidden pair. -/
theorem crf_decode_no_forbidden_transition (num_labels : Nat)
    (use_hmm_model : Bool) (allowed : List (Nat × Nat)) (p : CRFParams)
    (em : List (Nat → Int)) (B : Nat)
    (hstart : ∀ t, t < num_tags num_labels use_hmm_model →
        |p.start_transitions t| ≤ (B : Int))
    (hend : ∀ t, t < num_tags num_labels use_hmm_model →
        |p.end_transitions t| ≤ (B : Int))
    (htrans : ∀ i, i < num_tags num_labels use_hmm_model →
        ∀ k, k < num_tags num_labels use_hmm_model → |p.transitions i k| ≤ (B : Int))
    (hem : ∀ e ∈ em, ∀ t, t < num_tags num_labels use_hmm_model → |e t| ≤ (B : Int))
    (hB : (4 * em.length + 4) * B < 100000000)
    (hex : ∃ q ∈ allPaths (num_tags num_labels use_hmm_model) em.length,
        pathAllowed allowed q = true)
    (i k : Nat) (hik : (i, k) ∉ allowed) :
    containsTransition i k
      (crf_decode (num_tags num_labels use_hmm_model) p.start_transitions
        p.end_transitions
        (tmhmm3_init_crf num_labels use_hmm_model allowed p).transitions em)
      = false := by
  have hMle : ∀ a, a < num_tags num_labels use_hmm_model →
      ∀ b, b < num_tags num_labels use_hmm_model →
      (tmhmm3_init_crf num_labels use_hmm_model allowed p).transitions a b
        ≤ (B : Int) := by
    intro a ha b hb
    rw [tmhmm3_masked_transitions]
    by_cases hmem2 : (a, b) ∈ allowed
    · rw [if_pos ⟨ha, hb, hmem2⟩]
      exact le_trans (le_abs_self _) (htrans a ha b hb)
    · rw [if_neg (fun h => hmem2 h.2.2)]
      have := Int.natCast_nonneg B
      linarith
  have hMge : ∀ a, a < num_tags num_labels use_hmm_model →
      ∀ b, b < num_tags num_labels use_hmm_model → (a, b) ∈ allowed →
      -(B : Int) ≤ (tmhmm3_init_crf num_labels use_hmm_model allowed p).transitions a b := by
    intro a ha b hb hmem2
    rw [tmhmm3_masked_transitions, if_pos ⟨ha, hb, hmem2⟩]
    exact (abs_le.mp (htrans a ha b hb)).1
  have hforb : ∀ a b, (a, b) ∉ allowed →
      (tmhmm3_init_crf num_labels use_hmm_model allowed p).transitions a b
        = -100000000 := by
    intro a b hmem2
    rw [tmhmm3_masked_transitions, if_neg (fun h => hmem2 h.2.2)]
  exact containsTransition_eq_false_of_allowed allowed i k hik _
    (crf_decode_all_allowed (num_tags num_labels use_hmm_model) B allowed
      p.start_transitions p.end_transitions _ em hstart hend hMle hMge hforb
      hem hB hex)

/-- Witness for `crf_decode_no_forbidden_transition`: 2 tags, allowed set
`{(0,1), (1,0)}`, zero parameters and emissions, bound `B = 1`, forbidden pair
`(0, 0)`. -/
theorem crf_decode_no_forbidden_transition_witness :
    (∀ t, t < num_tags 2 false →
        |(CRFParams.mk (fun _ => 0) (fun _ => 0) (fun _ _ => 0)).start_transitions t|
          ≤ ((1 : Nat) : Int))
    ∧ (∀ t, t < num_tags 2 false →
        |(CRFParams.mk (fun _ => 0) (fun _ => 0) (fun _ _ => 0)).end_transitions t|
          ≤ ((1 : Nat) : Int))
    ∧ (∀ i, i < num_tags 2 false → ∀ k, k < num_tags 2 false →
        |(CRFParams.mk (fun _ => 0) (fun _ => 0) (fun _ _ => 0)).transitions i k|
          ≤ ((1 : Nat) : Int))
    ∧ (∀ e ∈ ([fun _ => 0, fun _ => 0] : List (Nat → Int)), ∀ t,
        t < num_tags 2 false → |e t| ≤ ((1 : Nat) : Int))
    ∧ (4 * ([fun _ => 0, fun _ => 0] : List (Nat → Int)).length + 4) * 1 < 100000000
    ∧ (∃ q ∈ allPaths (num_tags 2 false)
          ([fun _ => 0, fun _ => 0] : List (Nat → Int)).length,
        pathAllowed [(0, 1), (1, 0)] q = true)
    ∧ (((0 : Nat), (0 : Nat)) ∉ ([(0, 1), (1, 0)] : List (Nat × Nat)))
    ∧ containsTransition 0 0
        (crf_decode (num_tags 2 false)
          (CRFParams.mk (fun _ => 0) (fun _ => 0) (fun _ _ => 0)).start_transitions
          (CRFParams.mk (fun _ => 0) (fun _ => 0) (fun _ _ => 0)).end_transitions
          (tmhmm3_init_crf 2 false [(0, 1), (1, 0)]
            (CRFParams.mk (fun _ => 0) (fun _ => 0) (fun _ _ => 0))).transitions
          [fun _ => 0, fun _ => 0]) = false :=
  ⟨by decide, by decide, by decide, by decide, by decide, by decide, by decide,
    crf_decode_no_forbidden_transition 2 false [(0, 1), (1, 0)]
      (CRFParams.mk (fun _ => 0) (fun _ => 0) (fun _ _ => 0))
      [fun _ => 0, fun _ => 0] 1 (by decide) (by decide) (by decide) (by decide)
      (by decide) (by decide) 0 0 (by decide)⟩
